import Mathlib

/-!
Shallow embedding of the cc-chinese-wrapper index/search engine
(`src/index.js`): an ordered key-value store holding dictionary records,
exact-match index entries and substring index entries, with a batched
loader (`setup`) and range-scan search (`charBeginning` / `charAnywhere`).

Keys are modelled as `List Char` compared lexicographically by code point,
matching the byte order of UTF-8 encoded keys in the underlying store.
The store itself is modelled as a key-sorted association list; `put`
inserts or overwrites, and a range scan filters the entries between two
bounds in key order.
-/

/-- Keys and values of the store are strings; we work with their
character lists. -/
abbrev Str := List Char

/-- Lexicographic (code-point) strict order on keys, as the ordered
key-value store compares byte-string keys. -/
def strLtB : Str → Str → Bool
  | _, [] => false
  | [], _ :: _ => true
  | a :: as, b :: bs => decide (a < b) || (a == b && strLtB as bs)

/-- Boolean test that `p` is a (not necessarily proper) prefix of `k`. -/
def startsWithB : Str → Str → Bool
  | [], _ => true
  | _ :: _, [] => false
  | a :: as, b :: bs => a == b && startsWithB as bs

/-- One dictionary record, as used by `src/index.js`: a stable `id` and
the indexed text field `traditional`.  The remaining fields of the source
`Word` interface (pinyin, meaning, ...) are opaque pass-through metadata,
never read by the loader or the search engine. -/
structure Word where
  id : Str
  traditional : Str
deriving DecidableEq, Repr

/-- The parsed source corpus: a `version` scalar plus the record list. -/
structure Simplified where
  version : Str
  words : List Word
deriving DecidableEq, Repr

/-- Store values: a plain string (the version scalar, or the bare id held
by an index entry) or a serialized record (`JSON.stringify(w)`). -/
inductive Val where
  | str (s : Str)
  | word (w : Word)
deriving DecidableEq, Repr

/-- The store contents: an association list kept sorted by key. -/
abbrev Store := List (Str × Val)

/-- Insert or overwrite one key in the sorted store (last write wins,
as in the underlying key-value store). -/
def putStore : Store → Str → Val → Store
  | [], k, v => [(k, v)]
  | (k', v') :: rest, k, v =>
    if strLtB k k' then (k, v) :: (k', v') :: rest
    else if k == k' then (k, v) :: rest
    else (k', v') :: putStore rest k v

/-- Point read (`db.get`): `none` models the NotFound rejection. -/
def lookupStore : Store → Str → Option Val
  | [], _ => none
  | (k', v') :: rest, k => if k == k' then some v' else lookupStore rest k

/-- One operation of a `db.batch` call.  The loader only ever builds
`put` operations; `del` is in the store's vocabulary but never issued. -/
inductive BatchOp where
  | put (key : Str) (val : Val)
  | del (key : Str)
deriving DecidableEq, Repr

/-- Boolean test that a batch operation is a `put`. -/
def BatchOp.isPut : BatchOp → Bool
  | .put _ _ => true
  | .del _ => false

/-- Apply one batch operation to the store. -/
def applyOp (st : Store) : BatchOp → Store
  | .put k v => putStore st k v
  | .del k => st.filter (fun p => !(p.1 == k))

/-- Apply a list of batch operations in order.  Batch boundaries during a
load only control flush granularity; the final contents equal the ops
applied in order. -/
def applyOps (st : Store) : List BatchOp → Store
  | [] => st
  | op :: rest => applyOps (applyOp st op) rest

/-- JavaScript `s.substring(a, b)` semantics: both indices are clamped to
`[0, s.length]` and swapped when out of order; the result is the slice
between the smaller and the larger clamped index. -/
def jsSubstring (s : Str) (a b : Nat) : Str :=
  let x := min a s.length
  let y := min b s.length
  (s.take (max x y)).drop (min x y)

/-- The substring enumerator of `src/index.js`: for each `start` below
`s.length` and each `length` from 1 to `s.length - start` it adds
`s.substring(start, length)` to a set.  Note the source passes `length`
as the second argument of `substring`, i.e. as an end index.  The JS
`Set` is modelled as a duplicate-free list; only membership matters. -/
def allSubstrings (s : Str) : List Str :=
  (((List.range s.length).map (fun start =>
      (List.range (s.length - start)).map
        (fun k => jsSubstring s start (k + 1)))).flatten).dedup

/-- Key of the corpus metadata scalar written by the loader
(`raw/${key}` for `key = 'version'`). -/
def rawVersionKey : Str := "raw/version".data

/-- Key of a primary record (`raw/words/${id}`). -/
def rawWordsKey (i : Str) : Str := "raw/words/".data ++ i

/-- Namespace of all index keys (`indexes/`). -/
def idxNs : Str := "indexes/".data

/-- Namespace of the substring index keys (`indexes/partial/`).  Note it
is an extension of `idxNs`. -/
def subNs : Str := "indexes/partial/".data

/-- Exact-match index key (`indexes/${w.traditional}-${w.id}`). -/
def exactKey (w : Word) : Str := idxNs ++ w.traditional ++ "-".data ++ w.id

/-- Substring index key (`indexes/partial/${substr}-${id}`). -/
def subKey (sub i : Str) : Str := subNs ++ sub ++ "-".data ++ i

/-- The batch operations the loader pushes for one record: the primary
record, one exact index entry, and (unless `omitSub`) one substring index
entry per enumerated substring of the indexed field. -/
def wordOps (omitSub : Bool) (w : Word) : List BatchOp :=
  [BatchOp.put (rawWordsKey w.id) (.word w),
   BatchOp.put (exactKey w) (.str w.id)] ++
  (if omitSub then [] else
    (allSubstrings w.traditional).map (fun sub => BatchOp.put (subKey sub w.id) (.str w.id)))

/-- All store operations issued by a full load of corpus `raw`: the
metadata scalar first, then the per-record operations in corpus order. -/
def loadOps (raw : Simplified) (omitSub : Bool) : List BatchOp :=
  BatchOp.put rawVersionKey (.str raw.version) :: (raw.words.map (wordOps omitSub)).flatten

/-- The store contents after a full load into an empty store. -/
def loadStore (raw : Simplified) (omitSub : Bool) : Store :=
  applyOps [] (loadOps raw omitSub)

/-- The errors `setup` can throw. -/
inductive SetupError where
  | configError
  | parseError
deriving DecidableEq, Repr

/-- How a call to `setup` ends: returning an open handle and the version
value, throwing an error (recording whether the handle was closed before
the throw), or terminating the process via `process.exit` (recording the
exit code and whether the handle was closed first). -/
inductive SetupOutcome where
  | ok (db : Store) (version : Val)
  | thrown (err : SetupError) (dbClosed : Bool)
  | exited (code : Nat) (dbClosed : Bool)
deriving DecidableEq, Repr

/-- The environment `setup` reads: no `filename` argument, a file that
cannot be read, or a readable file that parses to a corpus (`none` models
a `JSON.parse` failure). -/
inductive FileRead where
  | noFile
  | readFail
  | readOk (parsed : Option Simplified)
deriving DecidableEq, Repr

/-- The key `setup` probes to detect an already-populated store
(`db.get('version')`).  Note this differs from `rawVersionKey`, the key
the loader actually writes. -/
def versionProbeKey : Str := "version".data

/-- The loader `setup(dbpath, filename, verbose, omitPartial)` of
`src/index.js`, over a store whose current contents are `pre`.  Returns
the outcome together with the list of store write operations issued
during the call.  `verbose` only logs and is omitted. -/
def setup (pre : Store) (file : FileRead) (omitSub : Bool) :
    SetupOutcome × List BatchOp :=
  match lookupStore pre versionProbeKey with
  | some v => (.ok pre v, [])
  | none =>
    match file with
    | .noFile => (.thrown .configError true, [])
    | .readFail => (.exited 1 false, [])
    | .readOk none => (.thrown .parseError false, [])
    | .readOk (some raw) =>
      (.ok (applyOps pre (loadOps raw omitSub)) (.str raw.version),
       loadOps raw omitSub)

/-- The `'￿'` sentinel appended to a scan's lower bound to form the
exclusive upper bound. -/
def sentinel : Char := Char.ofNat 65535

/-- The store entries a scan between `gte` (inclusive) and `lt`
(exclusive) ranges over, in ascending key order. -/
def scanRange (st : Store) (gte lt : Str) : List (Str × Val) :=
  st.filter (fun p => !strLtB p.1 gte && strLtB p.1 lt)

/-- A scan's limit semantics: `limit < 0` is unbounded, otherwise at most
`limit` entries are yielded. -/
def limitTake {α : Type} (limit : Int) (l : List α) : List α :=
  if limit < 0 then l else l.take limit.toNat

/-- The values yielded by a bounded range scan (`ValueStream` drained by
`drainStream`). -/
def drainValues (st : Store) (gte lt : Str) (limit : Int) : List Val :=
  (limitTake limit (scanRange st gte lt)).map (fun p => p.2)

/-- The keys of the entries a bounded range scan yields. -/
def scanKeys (st : Store) (gte lt : Str) (limit : Int) : List Str :=
  (limitTake limit (scanRange st gte lt)).map (fun p => p.1)

/-- JavaScript string interpolation of a scanned value: index entries
hold plain id strings; a serialized record would interpolate as its JSON
text (never the case on a loaded store). -/
def jsonStringifyWord (w : Word) : Str :=
  "\x7b\"id\":\"".data ++ w.id ++ "\",\"traditional\":\"".data ++
    w.traditional ++ "\"\x7d".data

/-- Coerce a scanned store value to the id string the search engine feeds
to the resolver. -/
def valAsId : Val → Str
  | .str s => s
  | .word w => jsonStringifyWord w

/-- The ID resolver `idsToWords`: one `get(raw/words/{id})` per id, in
order; a NotFound or a value that does not parse as a record rejects the
whole resolution (`none`). -/
def idsToWords (st : Store) : List Str → Option (List Word)
  | [] => some []
  | i :: rest =>
    match lookupStore st (rawWordsKey i) with
    | some (.word w) =>
      match idsToWords st rest with
      | some ws => some (w :: ws)
      | _ => none
    | _ => none

/-- Prefix search `searchBeginning`: scan
`[indexes/{pfx}, indexes/{pfx}￿)` with the given limit and resolve
the scanned ids. -/
def searchBeginning (st : Store) (pfx : Str) (limit : Int) : Option (List Word) :=
  idsToWords st
    ((drainValues st (idxNs ++ pfx) (idxNs ++ pfx ++ [sentinel]) limit).map valAsId)

/-- Substring search `searchAnywhere`: scan
`[indexes/partial/{text}, indexes/partial/{text}￿)` with the given
limit and resolve the scanned ids. -/
def searchAnywhere (st : Store) (text : Str) (limit : Int) : Option (List Word) :=
  idsToWords st
    ((drainValues st (subNs ++ text) (subNs ++ text ++ [sentinel]) limit).map valAsId)

/-- Public prefix-search entry point (`charBeginning`), default limit -1. -/
def charBeginning (st : Store) (pfx : Str) (limit : Int := -1) : Option (List Word) :=
  searchBeginning st pfx limit

/-- Public substring-search entry point (`charAnywhere`), default limit -1. -/
def charAnywhere (st : Store) (text : Str) (limit : Int := -1) : Option (List Word) :=
  searchAnywhere st text limit

/-- Metadata accessor `getField`: a direct `get` under `raw/`. -/
def getField (st : Store) (key : Str) : Option Val :=
  lookupStore st ("raw/".data ++ key)

/-! ### Concrete fixtures used by witnesses and counterexamples -/

/-- Record `{id: "1", traditional: "ab"}`. -/
def w1 : Word := ⟨"1".data, "ab".data⟩

/-- Corpus `{version: "1.0", words: [w1]}`. -/
def raw1 : Simplified := ⟨"1.0".data, [w1]⟩

/-- The store after loading `raw1` with substring indexing enabled. -/
def st1 : Store := loadStore raw1 false

/-- Record `{id: "1", traditional: "abc"}`. -/
def wABC : Word := ⟨"1".data, "abc".data⟩

/-- Corpus `{version: "1.0", words: [wABC]}`. -/
def rawABC : Simplified := ⟨"1.0".data, [wABC]⟩

/-- The store after loading `rawABC` with substring indexing enabled. -/
def stABC : Store := loadStore rawABC false

/-- Contiguous-substring relation on strings. -/
def SubstrOf (s t : Str) : Prop := ∃ l r, t = l ++ s ++ r

/-! ### Order lemmas for lexicographic keys -/

theorem strLtB_nil_right : ∀ (a : Str), strLtB a [] = false
  | [] => rfl
  | _ :: _ => rfl

theorem strLtB_append_self : ∀ (p x : Str), strLtB (p ++ x) p = false
  | [], x => strLtB_nil_right x
  | a :: p, x => by
      simp [strLtB, strLtB_append_self p x, lt_irrefl]

theorem strLtB_append_cons {a b : Char} (p : Str) (x y : Str) (h : a < b) :
    strLtB (p ++ a :: x) (p ++ b :: y) = true := by
  induction p with
  | nil => simp [strLtB, h]
  | cons c p ih => simp [strLtB, lt_irrefl, ih]

theorem strLtB_trans : ∀ (a b c : Str), strLtB a b = true → strLtB b c = true →
    strLtB a c = true
  | _, b, [], _, h₂ => by rw [strLtB_nil_right b] at h₂; exact absurd h₂ (by simp)
  | a, [], _, h₁, _ => by rw [strLtB_nil_right a] at h₁; exact absurd h₁ (by simp)
  | [], _ :: _, _ :: _, _, _ => rfl
  | a :: as, b :: bs, c :: cs, h₁, h₂ => by
      simp [strLtB] at h₁ h₂ ⊢
      rcases h₁ with h₁ | ⟨rfl, h₁⟩ <;> rcases h₂ with h₂ | ⟨rfl, h₂⟩
      · exact Or.inl (lt_trans h₁ h₂)
      · exact Or.inl h₁
      · exact Or.inl h₂
      · exact Or.inr ⟨rfl, strLtB_trans as bs cs h₁ h₂⟩

theorem strLtB_connex : ∀ (a b : Str), strLtB a b = false → strLtB b a = false → a = b
  | [], [], _, _ => rfl
  | [], _ :: _, h₁, _ => by simp [strLtB] at h₁
  | _ :: _, [], _, h₂ => by simp [strLtB] at h₂
  | a :: as, b :: bs, h₁, h₂ => by
      simp [strLtB] at h₁ h₂
      have hab : a = b := le_antisymm h₂.1 h₁.1
      subst hab
      exact congrArg (a :: ·) (strLtB_connex as bs (h₁.2 rfl) (h₂.2 rfl))

theorem strLtB_head_ri (xs ys : Str) : strLtB ('r' :: xs) ('i' :: ys) = false := rfl

/-! ### Store lemmas -/

theorem lookup_putStore : ∀ (st : Store) (k : Str) (v : Val) (k₀ : Str),
    lookupStore (putStore st k v) k₀ =
      if k₀ = k then some v else lookupStore st k₀
  | [], k, v, k₀ => by simp [putStore, lookupStore]
  | (k', v') :: rest, k, v, k₀ => by
      by_cases hlt : strLtB k k' = true
      · simp only [putStore, hlt, if_true, lookupStore]
        by_cases hk : k₀ = k
        · simp [hk]
        · simp [hk, beq_iff_eq]
      · by_cases heq : k = k'
        · subst heq
          simp only [putStore, hlt, if_false, beq_self_eq_true, if_true, lookupStore]
          by_cases hk : k₀ = k
          · simp [hk]
          · simp [hk, beq_iff_eq]
        · have hne : (k == k') = false := beq_eq_false_iff_ne.mpr heq
          simp only [putStore, hlt, if_false, hne, Bool.false_eq_true, lookupStore]
          by_cases hk : k₀ = k'
          · subst hk
            simp [beq_iff_eq, Ne.symm heq]
          · simp only [beq_iff_eq, hk, if_false]
            exact lookup_putStore rest k v k₀

theorem mem_putStore : ∀ {st : Store} {k : Str} {v : Val} {p : Str × Val},
    p ∈ putStore st k v → p = (k, v) ∨ p ∈ st
  | [], k, v, p, h => by simpa [putStore] using h
  | (k', v') :: rest, k, v, p, h => by
      by_cases hlt : strLtB k k' = true
      · simp only [putStore, hlt, if_true, List.mem_cons] at h
        rcases h with h | h | h
        · exact Or.inl h
        · exact Or.inr (by simp [h])
        · exact Or.inr (List.mem_cons_of_mem _ h)
      · by_cases heq : (k == k') = true
        · simp only [putStore, hlt, heq, Bool.false_eq_true, if_false, if_true,
            List.mem_cons] at h
          rcases h with h | h
          · exact Or.inl h
          · exact Or.inr (List.mem_cons_of_mem _ h)
        · simp only [putStore, hlt, heq, Bool.false_eq_true, if_false,
            List.mem_cons] at h
          rcases h with h | h
          · exact Or.inr (by simp [h])
          · rcases mem_putStore h with h' | h'
            · exact Or.inl h'
            · exact Or.inr (List.mem_cons_of_mem _ h')

theorem lookup_mem : ∀ {st : Store} {k : Str} {v : Val},
    lookupStore st k = some v → (k, v) ∈ st
  | [], _, _, h => by simp [lookupStore] at h
  | (k', v') :: rest, k, v, h => by
      by_cases hk : k = k'
      · subst hk
        simp only [lookupStore, beq_self_eq_true, if_true, Option.some.injEq] at h
        simp [h]
      · have hne : (k == k') = false := beq_eq_false_iff_ne.mpr hk
        simp only [lookupStore, hne, Bool.false_eq_true, if_false] at h
        exact List.mem_cons_of_mem _ (lookup_mem h)

theorem applyOps_append (st : Store) (a b : List BatchOp) :
    applyOps st (a ++ b) = applyOps (applyOps st a) b := by
  induction a generalizing st with
  | nil => rfl
  | cons op rest ih => simp [applyOps, ih]

theorem mem_applyOps : ∀ {ops : List BatchOp} {st : Store} {p : Str × Val},
    p ∈ applyOps st ops → p ∈ st ∨ ∃ k v, BatchOp.put k v ∈ ops ∧ p = (k, v)
  | [], st, p, h => Or.inl h
  | op :: rest, st, p, h => by
      rcases @mem_applyOps rest (applyOp st op) p h with h' | ⟨k, v, hk, hp⟩
      · cases op with
        | put k v =>
            rcases mem_putStore h' with h'' | h''
            · exact Or.inr ⟨k, v, by simp, h''⟩
            · exact Or.inl h''
        | del k =>
            exact Or.inl (List.mem_of_mem_filter h')
      · exact Or.inr ⟨k, v, List.mem_cons_of_mem _ hk, hp⟩

theorem applyOps_pres (P : Store → Prop) :
    ∀ (ops : List BatchOp) (st : Store),
      (∀ st' op, op ∈ ops → P st' → P (applyOp st' op)) → P st → P (applyOps st ops)
  | [], st, _, hst => hst
  | op :: rest, st, h, hst =>
      applyOps_pres P rest (applyOp st op)
        (fun st' op' hmem => h st' op' (List.mem_cons_of_mem _ hmem))
        (h st op (by simp) hst)

theorem applyOps_estab (P : Store → Prop) (ops : List BatchOp) (op₀ : BatchOp)
    (hmem : op₀ ∈ ops) (hest : ∀ st, P (applyOp st op₀))
    (hpres : ∀ st' op, op ∈ ops → P st' → P (applyOp st' op)) (st : Store) :
    P (applyOps st ops) := by
  rcases List.append_of_mem hmem with ⟨l₁, l₂, rfl⟩
  rw [applyOps_append]
  have h₁ : applyOps st (l₁ ++ [op₀]) = applyOp (applyOps st l₁) op₀ := by
    rw [applyOps_append]; rfl
  have : applyOps st (op₀ :: l₂) = applyOps (applyOp st op₀) l₂ := rfl
  rw [show applyOps (applyOps st l₁) (op₀ :: l₂) =
        applyOps (applyOp (applyOps st l₁) op₀) l₂ from rfl]
  exact applyOps_pres P l₂ _
    (fun st' op hop => hpres st' op (by simp [hop]))
    (hest _)

/-! ### Shape of the loaded store -/

/-- Classification of every key/value pair the loader writes: the
metadata scalar, a primary record, or an index entry (exact or
substring) holding the bare id of one of the corpus records. -/
def LoadShape (raw : Simplified) (k : Str) (v : Val) : Prop :=
  (k = rawVersionKey ∧ v = .str raw.version) ∨
  (∃ w, w ∈ raw.words ∧ k = rawWordsKey w.id ∧ v = .word w) ∨
  (∃ w rest, w ∈ raw.words ∧ k = idxNs ++ rest ∧ v = .str w.id)

theorem startsWithB_append (p rest : Str) : startsWithB p (p ++ rest) = true := by
  induction p with
  | nil => rfl
  | cons a p ih => simp [startsWithB, ih]

theorem exactKey_eq (w : Word) :
    exactKey w = idxNs ++ (w.traditional ++ "-".data ++ w.id) := by
  simp [exactKey, List.append_assoc]

theorem subKey_eq (sub i : Str) :
    subKey sub i = idxNs ++ ("partial/".data ++ (sub ++ "-".data ++ i)) := by
  show subNs ++ sub ++ "-".data ++ i = _
  have h : subNs = idxNs ++ "partial/".data := rfl
  rw [h]
  simp [List.append_assoc]

theorem loadOps_shape (raw : Simplified) (omitSub : Bool) :
    ∀ op ∈ loadOps raw omitSub, ∃ k v, op = BatchOp.put k v ∧ LoadShape raw k v := by
  intro op hop
  simp only [loadOps, List.mem_cons, List.mem_flatten, List.mem_map] at hop
  rcases hop with rfl | ⟨l, ⟨w, hw, rfl⟩, hop⟩
  · exact ⟨_, _, rfl, Or.inl ⟨rfl, rfl⟩⟩
  · simp only [wordOps, List.mem_append, List.mem_cons, List.mem_map,
      List.mem_singleton] at hop
    rcases hop with (rfl | rfl | h) | hop
    · exact ⟨_, _, rfl, Or.inr (Or.inl ⟨w, hw, rfl, rfl⟩)⟩
    · exact ⟨_, _, rfl, Or.inr (Or.inr ⟨w, _, hw, exactKey_eq w, rfl⟩)⟩
    · exact absurd h (List.not_mem_nil op)
    · cases omitSub with
      | true => simp at hop
      | false =>
        simp only [Bool.false_eq_true, if_false, List.mem_map] at hop
        rcases hop with ⟨sub, _, rfl⟩
        exact ⟨_, _, rfl, Or.inr (Or.inr ⟨w, _, hw, subKey_eq sub w.id, rfl⟩)⟩

theorem loadStore_shape (raw : Simplified) (omitSub : Bool) :
    ∀ p ∈ loadStore raw omitSub, LoadShape raw p.1 p.2 := by
  intro p hp
  rcases mem_applyOps hp with h | ⟨k, v, hk, rfl⟩
  · simp at h
  · rcases loadOps_shape raw omitSub _ hk with ⟨k', v', heq, hs⟩
    cases heq
    exact hs

theorem rawVersionKey_ne_rawWordsKey (i : Str) : rawVersionKey ≠ rawWordsKey i := by
  have h₁ : rawVersionKey = 'r' :: 'a' :: 'w' :: '/' :: 'v' :: "ersion".data := rfl
  have h₂ : rawWordsKey i = 'r' :: 'a' :: 'w' :: '/' :: 'w' :: ("ords/".data ++ i) := rfl
  rw [h₁, h₂]
  simp

theorem rawWordsKey_ne_idx (i rest : Str) : rawWordsKey i ≠ idxNs ++ rest := by
  have h₂ : rawWordsKey i = 'r' :: ("aw/words/".data ++ i) := rfl
  have h₃ : idxNs ++ rest = 'i' :: ("ndexes/".data ++ rest) := rfl
  rw [h₂, h₃]
  simp

theorem rawVersionKey_ne_idx (rest : Str) : rawVersionKey ≠ idxNs ++ rest := by
  have h₁ : rawVersionKey = 'r' :: "aw/version".data := rfl
  have h₃ : idxNs ++ rest = 'i' :: ("ndexes/".data ++ rest) := rfl
  rw [h₁, h₃]
  simp

theorem loadOps_isPut (raw : Simplified) (omitSub : Bool) :
    ∀ op ∈ loadOps raw omitSub, op.isPut = true := by
  intro op hop
  rcases loadOps_shape raw omitSub op hop with ⟨k, v, rfl, _⟩
  rfl

theorem record_put_mem (raw : Simplified) (omitSub : Bool) {w : Word}
    (hw : w ∈ raw.words) :
    BatchOp.put (rawWordsKey w.id) (Val.word w) ∈ loadOps raw omitSub := by
  simp only [loadOps, List.mem_cons, List.mem_flatten, List.mem_map]
  right
  exact ⟨wordOps omitSub w, ⟨w, hw, rfl⟩, by simp [wordOps]⟩

theorem sub_put_mem (raw : Simplified) {w : Word} (hw : w ∈ raw.words) {sub : Str}
    (hs : sub ∈ allSubstrings w.traditional) :
    BatchOp.put (subKey sub w.id) (Val.str w.id) ∈ loadOps raw false := by
  simp only [loadOps, List.mem_cons, List.mem_flatten, List.mem_map]
  right
  refine ⟨wordOps false w, ⟨w, hw, rfl⟩, ?_⟩
  simp only [wordOps, Bool.false_eq_true, if_false, List.mem_append, List.mem_cons,
    List.mem_map, List.mem_singleton]
  right
  exact ⟨sub, hs, rfl⟩

theorem loadStore_record (raw : Simplified) (omitSub : Bool) {w : Word}
    (hw : w ∈ raw.words) :
    ∃ u, u ∈ raw.words ∧
      lookupStore (loadStore raw omitSub) (rawWordsKey w.id) = some (Val.word u) := by
  rw [loadStore]
  refine applyOps_estab
    (fun st => ∃ u, u ∈ raw.words ∧
      lookupStore st (rawWordsKey w.id) = some (Val.word u))
    (loadOps raw omitSub) _ (record_put_mem raw omitSub hw)
    (fun st => ⟨w, hw, by simp [applyOp, lookup_putStore]⟩)
    (fun st' op hop' hP => ?_) []
  rcases loadOps_shape raw omitSub op hop' with ⟨k, v, rfl, hs⟩
  rcases hP with ⟨u, hu, hlook⟩
  by_cases hk : rawWordsKey w.id = k
  · rcases hs with ⟨hk', _⟩ | ⟨w₂, hw₂, _, hv⟩ | ⟨w₂, rest, _, hk', _⟩
    · exact absurd (hk' ▸ hk).symm (rawVersionKey_ne_rawWordsKey w.id)
    · subst hv
      exact ⟨w₂, hw₂, by simp [applyOp, lookup_putStore, hk]⟩
    · exact absurd (hk' ▸ hk) (rawWordsKey_ne_idx w.id rest)
  · exact ⟨u, hu, by simp [applyOp, lookup_putStore, hk, hlook]⟩

theorem lookup_isSome_applyOps {ops : List BatchOp}
    (hput : ∀ op ∈ ops, op.isPut = true) {st : Store} {k : Str}
    (h : (lookupStore st k).isSome = true) :
    (lookupStore (applyOps st ops) k).isSome = true := by
  induction ops generalizing st with
  | nil => exact h
  | cons op rest ih =>
    cases op with
    | put k' v' =>
      refine ih (fun o ho => hput o (List.mem_cons_of_mem _ ho)) ?_
      by_cases hk : k = k' <;> simp [applyOp, lookup_putStore, hk, h]
    | del k' =>
      have hd := hput (BatchOp.del k') (List.mem_cons_self _ _)
      simp [BatchOp.isPut] at hd

theorem loadStore_key_present (raw : Simplified) (omitSub : Bool) {k : Str} {v : Val}
    (hop : BatchOp.put k v ∈ loadOps raw omitSub) :
    (lookupStore (loadStore raw omitSub) k).isSome = true := by
  rw [loadStore]
  refine applyOps_estab (fun st => (lookupStore st k).isSome = true)
    (loadOps raw omitSub) _ hop
    (fun st => by simp [applyOp, lookup_putStore])
    (fun st' op hop' hP => ?_) []
  rcases loadOps_shape raw omitSub op hop' with ⟨k', v', rfl, _⟩
  by_cases hk : k = k' <;> simp [applyOp, lookup_putStore, hk, hP]

/-! ### Sortedness of the store and of scans -/

/-- The store invariant: entries are strictly ascending in key order. -/
def StoreSorted (st : Store) : Prop :=
  st.Pairwise (fun p q => strLtB p.1 q.1 = true)

theorem putStore_sorted : ∀ {st : Store} (k : Str) (v : Val),
    StoreSorted st → StoreSorted (putStore st k v)
  | [], k, v, _ => by simp [putStore, StoreSorted]
  | (k', v') :: rest, k, v, h => by
      rw [StoreSorted, List.pairwise_cons] at h
      obtain ⟨hhead, htail⟩ := h
      by_cases hlt : strLtB k k' = true
      · rw [show putStore ((k', v') :: rest) k v = (k, v) :: (k', v') :: rest by
          simp [putStore, hlt]]
        refine List.Pairwise.cons ?_ (List.Pairwise.cons hhead htail)
        intro q hq
        rcases List.mem_cons.mp hq with rfl | hq'
        · exact hlt
        · exact strLtB_trans _ _ _ hlt (hhead q hq')
      · by_cases heq : (k == k') = true
        · have hk : k = k' := beq_iff_eq.mp heq
          subst hk
          rw [show putStore ((k, v') :: rest) k v = (k, v) :: rest by
            simp [putStore, hlt]]
          exact List.Pairwise.cons hhead htail
        · have hk' : strLtB k' k = true := by
            cases hb : strLtB k' k with
            | true => rfl
            | false =>
              have := strLtB_connex k k' (Bool.not_eq_true _ ▸ hlt) hb
              exact absurd (beq_iff_eq.mpr this) (by simp [heq])
          rw [show putStore ((k', v') :: rest) k v =
                (k', v') :: putStore rest k v by simp [putStore, hlt, heq]]
          refine List.Pairwise.cons ?_ (putStore_sorted k v htail)
          intro q hq
          rcases mem_putStore hq with rfl | hq'
          · exact hk'
          · exact hhead q hq'

theorem applyOps_sorted : ∀ (ops : List BatchOp) {st : Store},
    StoreSorted st → StoreSorted (applyOps st ops)
  | [], _, h => h
  | op :: rest, st, h => by
      refine applyOps_sorted rest ?_
      cases op with
      | put k v => exact putStore_sorted k v h
      | del k => exact List.Pairwise.filter _ h

theorem loadStore_sorted (raw : Simplified) (omitSub : Bool) :
    StoreSorted (loadStore raw omitSub) :=
  applyOps_sorted _ (by simp [StoreSorted])

theorem mem_limitTake {α : Type} {limit : Int} {l : List α} {x : α}
    (h : x ∈ limitTake limit l) : x ∈ l := by
  unfold limitTake at h
  split at h
  · exact h
  · exact List.take_subset _ _ h

theorem length_limitTake_le {α : Type} {limit : Int} (h : 0 ≤ limit) (l : List α) :
    (limitTake limit l).length ≤ limit.toNat := by
  unfold limitTake
  rw [if_neg (by omega)]
  simp [List.length_take]

theorem mem_scanKeys {st : Store} {gte lt : Str} {limit : Int} {k : Str}
    (h : k ∈ scanKeys st gte lt limit) :
    (∃ v, (k, v) ∈ st) ∧ strLtB k gte = false ∧ strLtB k lt = true := by
  simp only [scanKeys, List.mem_map] at h
  rcases h with ⟨p, hp, rfl⟩
  have hp' := mem_limitTake hp
  simp only [scanRange, List.mem_filter, Bool.and_eq_true, Bool.not_eq_true'] at hp'
  exact ⟨⟨p.2, hp'.1⟩, hp'.2.1, hp'.2.2⟩

theorem mem_drainValues {st : Store} {gte lt : Str} {limit : Int} {v : Val}
    (h : v ∈ drainValues st gte lt limit) :
    ∃ k, (k, v) ∈ st ∧ strLtB k gte = false ∧ strLtB k lt = true := by
  simp only [drainValues, List.mem_map] at h
  rcases h with ⟨p, hp, rfl⟩
  have hp' := mem_limitTake hp
  simp only [scanRange, List.mem_filter, Bool.and_eq_true, Bool.not_eq_true'] at hp'
  exact ⟨p.1, hp'.1, hp'.2.1, hp'.2.2⟩

theorem scanKeys_sorted {st : Store} (h : StoreSorted st) (gte lt : Str) (limit : Int) :
    (scanKeys st gte lt limit).Pairwise (fun a b => strLtB a b = true) := by
  have h₁ : (scanRange st gte lt).Pairwise (fun p q => strLtB p.1 q.1 = true) :=
    List.Pairwise.filter _ h
  have h₂ : (limitTake limit (scanRange st gte lt)).Pairwise
      (fun p q => strLtB p.1 q.1 = true) := by
    unfold limitTake
    split
    · exact h₁
    · exact List.Pairwise.sublist (List.take_sublist _ _) h₁
  exact h₂.map _ (fun a b hab => hab)

/-! ### Resolver lemmas -/

theorem idsToWords_length {st : Store} : ∀ {ids : List Str} {ws : List Word},
    idsToWords st ids = some ws → ws.length = ids.length
  | [], ws, h => by
      simp only [idsToWords, Option.some.injEq] at h
      subst h
      rfl
  | i :: rest, ws, h => by
      simp only [idsToWords] at h
      cases hl : lookupStore st (rawWordsKey i) with
      | none => rw [hl] at h; simp at h
      | some v =>
        cases v with
        | str s => rw [hl] at h; simp at h
        | word w =>
          rw [hl] at h
          cases hr : idsToWords st rest with
          | none => rw [hr] at h; simp at h
          | some ws' =>
            rw [hr] at h
            simp only [Option.some.injEq] at h
            subst h
            simp [idsToWords_length hr]

theorem idsToWords_forall2 {st : Store} : ∀ {ids : List Str} {ws : List Word},
    idsToWords st ids = some ws →
    List.Forall₂ (fun i w => lookupStore st (rawWordsKey i) = some (Val.word w)) ids ws
  | [], ws, h => by
      simp only [idsToWords, Option.some.injEq] at h
      subst h
      exact List.Forall₂.nil
  | i :: rest, ws, h => by
      simp only [idsToWords] at h
      cases hl : lookupStore st (rawWordsKey i) with
      | none => rw [hl] at h; simp at h
      | some v =>
        cases v with
        | str s => rw [hl] at h; simp at h
        | word w =>
          rw [hl] at h
          cases hr : idsToWords st rest with
          | none => rw [hr] at h; simp at h
          | some ws' =>
            rw [hr] at h
            simp only [Option.some.injEq] at h
            subst h
            exact List.Forall₂.cons hl (idsToWords_forall2 hr)

theorem idsToWords_total {st : Store} : ∀ {ids : List Str},
    (∀ i ∈ ids, ∃ u, lookupStore st (rawWordsKey i) = some (Val.word u)) →
    ∃ ws, idsToWords st ids = some ws ∧ ws.length = ids.length
  | [], _ => ⟨[], rfl, rfl⟩
  | i :: rest, h => by
      obtain ⟨u, hu⟩ := h i (by simp)
      obtain ⟨ws, hws, hlen⟩ :=
        idsToWords_total (fun j hj => h j (List.mem_cons_of_mem _ hj))
      exact ⟨u :: ws, by simp [idsToWords, hu, hws], by simp [hlen]⟩

theorem scanKeys_loadStore_idx (raw : Simplified) (omitSub : Bool) {gte lt : Str}
    (limit : Int) (hlt : ∃ rest, lt = 'i' :: rest) :
    ∀ k ∈ scanKeys (loadStore raw omitSub) gte lt limit, startsWithB idxNs k = true := by
  intro k hk
  rcases mem_scanKeys hk with ⟨⟨v, hvst⟩, _, hk2⟩
  rcases loadStore_shape raw omitSub (k, v) hvst with
    ⟨hk', _⟩ | ⟨w₂, _, hk', _⟩ | ⟨w₂, rest, _, hk', _⟩
  · exfalso
    rcases hlt with ⟨r, rfl⟩
    rw [show k = rawVersionKey from hk',
      show rawVersionKey = 'r' :: "aw/version".data from rfl,
      strLtB_head_ri] at hk2
    exact Bool.false_ne_true hk2
  · exfalso
    rcases hlt with ⟨r, rfl⟩
    rw [show k = rawWordsKey w₂.id from hk',
      show rawWordsKey w₂.id = 'r' :: ("aw/words/".data ++ w₂.id) from rfl,
      strLtB_head_ri] at hk2
    exact Bool.false_ne_true hk2
  · rw [show k = idxNs ++ rest from hk']
    exact startsWithB_append _ _

/-! ### Claims -/

/-- C1: the claim that a second `setup` against an already-populated store
probes the designated metadata key, finds it present and returns at once
with no additional writes fails on the code.  The loader stores the
version under `raw/version` while the probe reads the bare key `version`,
so after a successful load of `raw1` the probe misses, and the second
call re-reads the corpus and re-issues the full list of write operations
(it does still return the same version). -/
theorem c1_second_setup_reissues_writes :
    lookupStore st1 versionProbeKey = none ∧
    lookupStore st1 rawVersionKey = some (Val.str "1.0".data) ∧
    setup st1 (FileRead.readOk (some raw1)) false =
      (SetupOutcome.ok (applyOps st1 (loadOps raw1 false)) (Val.str "1.0".data),
       loadOps raw1 false) ∧
    (setup st1 (FileRead.readOk (some raw1)) false).2 ≠ [] := by decide

/-- C2: the claim that the substring enumerator returns exactly the set
of all distinct non-empty contiguous substrings fails on the code: on the
input `"ab"` it returns `{"a", "ab", ""}`, missing the genuine substring
`"b"` and containing the empty string, because the inner loop's `length`
is passed to `substring` as an end index. -/
theorem c2_substring_enumerator_wrong_set :
    allSubstrings "ab".data = ["a".data, "ab".data, []] ∧
    "b".data ∉ allSubstrings "ab".data ∧
    SubstrOf "b".data "ab".data ∧ "b".data ≠ [] ∧
    [] ∈ allSubstrings "ab".data :=
  ⟨by decide, by decide, ⟨"a".data, [], by decide⟩, by decide, by decide⟩

/-- C3: substring completeness fails on the code: `"c"` is a non-empty
contiguous substring of the indexed value `"abc"` of the loaded record
`wABC`, yet an unbounded `substringSearch("c")` on the freshly loaded
store returns the empty list, because the enumerator never produced the
substring `"c"` at load time. -/
theorem c3_substring_search_misses_record :
    SubstrOf "c".data "abc".data ∧ "c".data ≠ [] ∧
    wABC ∈ rawABC.words ∧
    charAnywhere stABC "c".data (-1) = some [] :=
  ⟨⟨"ab".data, [], by decide⟩, by decide, by decide, by decide⟩

/-- C4 counterexample: the prefix-search range scan is not confined to
exact-index entries.  On the store loaded from `raw1`, the prefix query
`"p"` scans `[indexes/p, indexes/p￿)` and yields exactly the three
substring-index keys `indexes/partial/...`, which live inside that
range. -/
theorem c4_prefix_scan_yields_substring_entries :
    scanKeys st1 (idxNs ++ "p".data) (idxNs ++ "p".data ++ [sentinel]) (-1) =
      [subKey [] "1".data, subKey "a".data "1".data, subKey "ab".data "1".data] ∧
    (scanKeys st1 (idxNs ++ "p".data) (idxNs ++ "p".data ++ [sentinel]) (-1)).all
      (fun k => startsWithB subNs k) = true ∧
    scanKeys st1 (idxNs ++ "p".data) (idxNs ++ "p".data ++ [sentinel]) (-1) ≠ [] := by
  decide

/-- C4 amended: record keys and metadata keys (`raw/*`) are disjoint from
index keys (`indexes/*`), and every prefix-search or substring-search
range scan on a loaded store yields only keys in the index namespace
`indexes/*` — but the substring-index namespace `indexes/partial/*` lies
inside the exact-index namespace, so a prefix scan may yield
substring-index entries (see the counterexample). -/
theorem c4_scans_confined_to_index_namespace (raw : Simplified) (omitSub : Bool)
    (q : Str) (limit : Int) :
    (scanKeys (loadStore raw omitSub) (idxNs ++ q) (idxNs ++ q ++ [sentinel]) limit).all
      (fun k => startsWithB idxNs k) = true ∧
    (scanKeys (loadStore raw omitSub) (subNs ++ q) (subNs ++ q ++ [sentinel]) limit).all
      (fun k => startsWithB idxNs k) = true := by
  constructor
  · exact List.all_eq_true.mpr
      (scanKeys_loadStore_idx raw omitSub limit
        ⟨"ndexes/".data ++ q ++ [sentinel], rfl⟩)
  · exact List.all_eq_true.mpr
      (scanKeys_loadStore_idx raw omitSub limit
        ⟨"ndexes/partial/".data ++ q ++ [sentinel], rfl⟩)

/-- C5 counterexample: not every failing exit path of `setup` closes the
store handle before the error leaves.  A parse failure is thrown with the
handle still open, and an unreadable source file terminates the process
(exit code 1) with the handle still open. -/
theorem c5_error_paths_leave_handle_open :
    (setup [] (FileRead.readOk none) false).1 =
      SetupOutcome.thrown SetupError.parseError false ∧
    (setup [] FileRead.readFail false).1 = SetupOutcome.exited 1 false := by decide

/-- C5 amended: on the ConfigurationError path (store uninitialized, no
source file) the handle is closed before the error is raised, but a parse
failure is raised with the handle left open, and an unreadable source
file exits the process with the handle left open and no error raised. -/
theorem c5_handle_closing_on_error_paths (pre : Store) (omitSub : Bool)
    (h : lookupStore pre versionProbeKey = none) :
    setup pre FileRead.noFile omitSub =
      (SetupOutcome.thrown SetupError.configError true, []) ∧
    setup pre (FileRead.readOk none) omitSub =
      (SetupOutcome.thrown SetupError.parseError false, []) ∧
    setup pre FileRead.readFail omitSub =
      (SetupOutcome.exited 1 false, []) := by
  simp [setup, h]

theorem c5_handle_closing_on_error_paths_witness :
    setup [] FileRead.noFile false =
      (SetupOutcome.thrown SetupError.configError true, []) ∧
    setup [] (FileRead.readOk none) false =
      (SetupOutcome.thrown SetupError.parseError false, []) ∧
    setup [] FileRead.readFail false =
      (SetupOutcome.exited 1 false, []) :=
  c5_handle_closing_on_error_paths [] false rfl

/-- C6 counterexample: when the store is uninitialized and the source
file cannot be read, `setup` does not surface an error to its caller: it
terminates the process with exit code 1, so control never returns. -/
theorem c6_read_failure_exits_process :
    (setup [] FileRead.readFail false).1 = SetupOutcome.exited 1 false := by decide

/-- C6 amended: when the store is uninitialized, a parse failure does
surface to the caller as a thrown ParseError (not retried), but a read
failure does not surface: the process exits with code 1 instead of
throwing. -/
theorem c6_error_surfacing (pre : Store) (omitSub : Bool)
    (h : lookupStore pre versionProbeKey = none) :
    (setup pre (FileRead.readOk none) omitSub).1 =
      SetupOutcome.thrown SetupError.parseError false ∧
    (setup pre FileRead.readFail omitSub).1 = SetupOutcome.exited 1 false := by
  simp [setup, h]

theorem c6_error_surfacing_witness :
    (setup [] (FileRead.readOk none) false).1 =
      SetupOutcome.thrown SetupError.parseError false ∧
    (setup [] FileRead.readFail false).1 = SetupOutcome.exited 1 false :=
  c6_error_surfacing [] false rfl

theorem limitTake_zero {α : Type} (l : List α) : limitTake 0 l = [] := by
  unfold limitTake
  rw [if_neg (lt_irrefl 0)]
  simp

theorem jsSubstring_one_one (s : Str) : jsSubstring s 1 1 = [] := by
  simp [jsSubstring, List.drop_take]

/-- C7: limit semantics of both search shapes.  For `limit ≥ 0` the
returned list has at most `limit` records; `limit = 0` returns the empty
list; a negative limit (the default -1) is unbounded: the result has one
record per matching index entry of the scanned range, with no
truncation. -/
theorem c7_limit_semantics (st : Store) (q : Str) (limit : Int) :
    (0 ≤ limit → ∀ ws, charBeginning st q limit = some ws →
      ws.length ≤ limit.toNat) ∧
    (0 ≤ limit → ∀ ws, charAnywhere st q limit = some ws →
      ws.length ≤ limit.toNat) ∧
    charBeginning st q 0 = some [] ∧
    charAnywhere st q 0 = some [] ∧
    (limit < 0 → ∀ ws, charBeginning st q limit = some ws →
      ws.length = (scanRange st (idxNs ++ q) (idxNs ++ q ++ [sentinel])).length) ∧
    (limit < 0 → ∀ ws, charAnywhere st q limit = some ws →
      ws.length = (scanRange st (subNs ++ q) (subNs ++ q ++ [sentinel])).length) := by
  refine ⟨?_, ?_, ?_, ?_, ?_, ?_⟩
  · intro hl ws hws
    rw [idsToWords_length hws]
    simp only [List.length_map, drainValues]
    exact length_limitTake_le hl _
  · intro hl ws hws
    rw [idsToWords_length hws]
    simp only [List.length_map, drainValues]
    exact length_limitTake_le hl _
  · show idsToWords st _ = some []
    rw [show drainValues st (idxNs ++ q) (idxNs ++ q ++ [sentinel]) 0 = [] by
      simp [drainValues, limitTake_zero]]
    rfl
  · show idsToWords st _ = some []
    rw [show drainValues st (subNs ++ q) (subNs ++ q ++ [sentinel]) 0 = [] by
      simp [drainValues, limitTake_zero]]
    rfl
  · intro hl ws hws
    rw [idsToWords_length hws]
    simp only [List.length_map, drainValues]
    unfold limitTake
    rw [if_pos hl]
  · intro hl ws hws
    rw [idsToWords_length hws]
    simp only [List.length_map, drainValues]
    unfold limitTake
    rw [if_pos hl]

theorem c7_limit_semantics_witness :
    ∃ ws, charAnywhere st1 "a".data 1 = some ws ∧ ws.length ≤ (1 : Int).toNat := by
  refine ⟨[w1], by decide, ?_⟩
  exact (c7_limit_semantics st1 "a".data 1).2.1 (by decide) [w1] (by decide)

/-- C8: results come back in scanned index-key order.  The keys any
bounded scan yields on a loaded store are strictly ascending in
lexicographic order (for both the prefix and the substring range shape),
and the ID resolver maps the scanned id list to a record list of the
same length whose i-th record is the resolution of the i-th id, i.e. it
preserves input order. -/
theorem c8_scan_order_and_resolution (raw : Simplified) (omitSub : Bool) (q : Str)
    (limit : Int) (st : Store) :
    (scanKeys (loadStore raw omitSub) (idxNs ++ q)
      (idxNs ++ q ++ [sentinel]) limit).Pairwise (fun a b => strLtB a b = true) ∧
    (scanKeys (loadStore raw omitSub) (subNs ++ q)
      (subNs ++ q ++ [sentinel]) limit).Pairwise (fun a b => strLtB a b = true) ∧
    (∀ ids ws, idsToWords st ids = some ws →
      ws.length = ids.length ∧
      List.Forall₂ (fun i w => lookupStore st (rawWordsKey i) = some (Val.word w))
        ids ws) :=
  ⟨scanKeys_sorted (loadStore_sorted raw omitSub) _ _ _,
   scanKeys_sorted (loadStore_sorted raw omitSub) _ _ _,
   fun _ _ h => ⟨idsToWords_length h, idsToWords_forall2 h⟩⟩

theorem c8_scan_order_and_resolution_witness :
    ([w1] : List Word).length = (["1".data] : List Str).length ∧
    List.Forall₂ (fun i w => lookupStore st1 (rawWordsKey i) = some (Val.word w))
      ["1".data] [w1] :=
  (c8_scan_order_and_resolution raw1 false [] (-1) st1).2.2 ["1".data] [w1] (by decide)

/-- C9: for every indexed field value of length at least 2 the enumerated
substring set contains the empty string, so the loader writes a
substring-index entry whose key is the substring namespace followed by
just `-{id}`, and an unbounded substring search with the empty query on
the loaded store succeeds and returns a non-empty record list. -/
theorem c9_empty_substring_entry (raw : Simplified) (w : Word)
    (hw : w ∈ raw.words) (hlen : 2 ≤ w.traditional.length) :
    [] ∈ allSubstrings w.traditional ∧
    (lookupStore (loadStore raw false) (subKey [] w.id)).isSome = true ∧
    ∃ ws, charAnywhere (loadStore raw false) [] (-1) = some ws ∧ ws ≠ [] := by
  have ha : [] ∈ allSubstrings w.traditional := by
    unfold allSubstrings
    rw [List.mem_dedup, List.mem_flatten]
    refine ⟨(List.range (w.traditional.length - 1)).map
      (fun k => jsSubstring w.traditional 1 (k + 1)), ?_, ?_⟩
    · exact List.mem_map.mpr ⟨1, List.mem_range.mpr (by omega), rfl⟩
    · exact List.mem_map.mpr ⟨0, List.mem_range.mpr (by omega), jsSubstring_one_one _⟩
  have hb := loadStore_key_present raw false (sub_put_mem raw hw ha)
  refine ⟨ha, hb, ?_⟩
  have hres : ∀ i ∈ (drainValues (loadStore raw false) (subNs ++ ([] : Str))
      (subNs ++ ([] : Str) ++ [sentinel]) (-1)).map valAsId,
      ∃ u, lookupStore (loadStore raw false) (rawWordsKey i) = some (Val.word u) := by
    intro i hi
    rcases List.mem_map.mp hi with ⟨v, hv, rfl⟩
    rcases mem_drainValues hv with ⟨k, hkst, hk1, hk2⟩
    rcases loadStore_shape raw false (k, v) hkst with
      ⟨hk', hv'⟩ | ⟨w₂, hw₂, hk', hv'⟩ | ⟨w₂, rest, hw₂, hk', hv'⟩
    · exfalso
      rw [show k = rawVersionKey from hk',
        show rawVersionKey = 'r' :: "aw/version".data from rfl,
        show subNs ++ ([] : Str) ++ [sentinel] =
          'i' :: ("ndexes/partial/".data ++ [sentinel]) from rfl,
        strLtB_head_ri] at hk2
      exact Bool.false_ne_true hk2
    · exfalso
      rw [show k = rawWordsKey w₂.id from hk',
        show rawWordsKey w₂.id = 'r' :: ("aw/words/".data ++ w₂.id) from rfl,
        show subNs ++ ([] : Str) ++ [sentinel] =
          'i' :: ("ndexes/partial/".data ++ [sentinel]) from rfl,
        strLtB_head_ri] at hk2
      exact Bool.false_ne_true hk2
    · obtain ⟨u, hu, hlook⟩ := loadStore_record raw false hw₂
      refine ⟨u, ?_⟩
      rw [show valAsId v = w₂.id by rw [show v = Val.str w₂.id from hv']; rfl]
      exact hlook
  obtain ⟨ws, hws, hlen2⟩ := idsToWords_total hres
  refine ⟨ws, hws, ?_⟩
  rcases Option.isSome_iff_exists.mp hb with ⟨v, hv⟩
  have hin : (subKey [] w.id, v) ∈ scanRange (loadStore raw false)
      (subNs ++ ([] : Str)) (subNs ++ ([] : Str) ++ [sentinel]) := by
    simp only [scanRange, List.mem_filter]
    refine ⟨lookup_mem hv, ?_⟩
    rw [Bool.and_eq_true, Bool.not_eq_true']
    constructor
    · rw [show subKey [] w.id = (subNs ++ ([] : Str)) ++ ("-".data ++ w.id) by
        simp [subKey]]
      exact strLtB_append_self _ _
    · rw [show subKey [] w.id = (subNs ++ ([] : Str)) ++ ('-' :: w.id) by
        simp [subKey]]
      rw [show subNs ++ ([] : Str) ++ [sentinel] =
        (subNs ++ ([] : Str)) ++ (sentinel :: []) from rfl]
      exact strLtB_append_cons _ _ _ (by decide)
  have hlen3 : 0 < ws.length := by
    rw [hlen2]
    simp only [List.length_map, drainValues]
    rw [show limitTake (-1) (scanRange (loadStore raw false) (subNs ++ ([] : Str))
        (subNs ++ ([] : Str) ++ [sentinel])) = scanRange (loadStore raw false)
        (subNs ++ ([] : Str)) (subNs ++ ([] : Str) ++ [sentinel]) by
      unfold limitTake
      rw [if_pos (by norm_num)]]
    exact List.length_pos_of_mem hin
  exact List.length_pos.mp hlen3

theorem c9_empty_substring_entry_witness :
    [] ∈ allSubstrings w1.traditional ∧
    (lookupStore (loadStore raw1 false) (subKey [] w1.id)).isSome = true ∧
    ∃ ws, charAnywhere (loadStore raw1 false) [] (-1) = some ws ∧ ws ≠ [] :=
  c9_empty_substring_entry raw1 w1 (by decide) (by decide)

/-- C10: every store operation the loader issues during a load is a
`put`; and applying any sequence of `put` operations never removes a key,
so every key present before a batch is flushed is still present
afterwards. -/
theorem c10_load_issues_only_puts (raw : Simplified) (omitSub : Bool) :
    (∀ op ∈ loadOps raw omitSub, op.isPut = true) ∧
    (∀ (pre : Store) (ops : List BatchOp) (k : Str),
      (∀ op ∈ ops, op.isPut = true) →
      (lookupStore pre k).isSome = true →
      (lookupStore (applyOps pre ops) k).isSome = true) :=
  ⟨loadOps_isPut raw omitSub,
   fun _ _ _ hput h => lookup_isSome_applyOps hput h⟩

theorem c10_load_issues_only_puts_witness :
    (lookupStore (applyOps st1 (loadOps raw1 false)) rawVersionKey).isSome = true :=
  (c10_load_issues_only_puts raw1 false).2 st1 (loadOps raw1 false) rawVersionKey
    (by decide) (by decide)
